import Mathlib

/-!
Verification of the statistics-report framework of
`src/ui/qt/tap_parameter_dialog.cpp`: the key-to-factory dialog registry
(`registerDialog` / `showTapParameterStatistics`) and the four-format tree
serializer (`getTreeAsString` with its helper `itemDataToPlain`).

The embedding is shallow: QString becomes `String` (one `Char` per QChar),
QList becomes `List`, the QHash registry becomes an association list with
QHash insert-or-replace semantics, and the `NotHidden` tree iterator becomes
the flat list `TreeData.rows` of visible rows, each row being the `QVariant`
list returned by `treeItemData`.  Qt library calls that the code relies on
(`QString::arg` field-width padding, `QString::toHtmlEscaped`,
`QStringList::join`, `QByteArray::fill`) are embedded by their documented
semantics.
-/

namespace TapDialog

/-- Model of a `QVariant` cell as stored in a tree item.  The data model of
the dialog uses exactly the types String, Int, UInt and Double
(`itemDataToPlain` switches on these).  A Double cell is abstracted by its
two textual renderings, because the serializer only ever inspects the text:
`fixed` stands for `QString::number(d, 'f', 6)` (used by `itemDataToPlain`)
and `generic` stands for `QVariant::toString()` (used by the CSV, XML and
YAML branches). -/
inductive Cell where
  | str (s : String)
  | int (n : Int)
  | uint (n : Nat)
  | float (fixed : String) (generic : String)
deriving DecidableEq, Repr

/-- True exactly when the cell has `QVariant::String` type. -/
def Cell.isString : Cell → Bool
  | .str _ => true
  | _ => false

/-- Models `QVariant::toString()`: the identity on strings and the decimal
rendering of integers; for doubles, the abstract `generic` rendering. -/
def Cell.toQString : Cell → String
  | .str s => s
  | .int n => toString n
  | .uint n => toString n
  | .float _ g => g

/-- The `plain_str` computed by the switch in `itemDataToPlain`
(`tap_parameter_dialog.cpp:167-180`): `var.toString()` for String, Int and
UInt, `QString::number(var.toDouble(), 'f', 6)` for Double. -/
def Cell.plainText : Cell → String
  | .str s => s
  | .int n => toString n
  | .uint n => toString n
  | .float f _ => f

/-- A run of `n` space characters. -/
def spaces (n : Nat) : String := String.mk (List.replicate n (Char.ofNat 32))

/-- Models `QString("%1").arg(s, fieldWidth)`: pad `s` with spaces to
`|fieldWidth|` characters; a negative field width left-aligns (pads on the
right), a positive one right-aligns.  A string at least as long as the field
is returned unchanged. -/
def qstringArg (s : String) (fieldWidth : Int) : String :=
  if s.length < fieldWidth.natAbs then
    if fieldWidth < 0 then s ++ spaces (fieldWidth.natAbs - s.length)
    else spaces (fieldWidth.natAbs - s.length) ++ s
  else s

/-- Embeds `TapParameterDialog::itemDataToPlain`
(`tap_parameter_dialog.cpp:162-186`): compute `plain_str` from the variant
type, then pad it to `width` characters, left-aligned (negative field width)
for String cells and right-aligned for the numeric types. -/
def itemDataToPlain (var : Cell) (width : Nat) : String :=
  let align_mul : Int := if var.isString then -1 else 1
  let plain_str := var.plainText
  if plain_str.length < width then qstringArg plain_str ((width : Int) * align_mul)
  else plain_str

/-- Models `QStringList::join(sep)`. -/
def qjoin (sep : String) : List String → String
  | [] => ""
  | [s] => s
  | s :: rest => s ++ sep ++ qjoin sep rest

/-- Concatenation of a list of strings (the result of a loop that appends
one piece per element to a buffer). -/
def strConcat : List String → String
  | [] => ""
  | s :: rest => s ++ strConcat rest

/-- The input of `getTreeAsString`: the dialog title (`windowSubtitle()`),
the capture file name (`cap_file_.fileName()`), the header labels
(`statsTreeWidget->headerItem()->text(col)` for `col` below `columnCount()`),
and the visible rows in `QTreeWidgetItemIterator::NotHidden` order, each row
the `QList<QVariant>` returned by `treeItemData`. -/
structure TreeData where
  title : String
  fileName : String
  headers : List String
  rows : List (List Cell)
deriving DecidableEq, Repr

/-- The export format enum `st_format_type` (only the four values used by
`getTreeAsString`). -/
inductive StFormatType where
  | plain
  | csv
  | xml
  | yaml
deriving DecidableEq, Repr

/-- Models `headerItem()->text(col)`: the label at `col`, or the empty
string for a column index at or beyond `columnCount()`. -/
def headerText (headers : List String) (col : Nat) : String := headers.getD col ""

/-- Models `QString::toHtmlEscaped()` (and the Qt 4 `Qt::escape` branch),
whose documented behavior is to replace the HTML metacharacters
`<`, `>`, `&` and `"` by entities, built up left to right as in the Qt
implementation loop.  Note that the apostrophe is not replaced. -/
def toHtmlEscaped (s : String) : String :=
  s.data.foldl
    (fun rich ch =>
      if ch = Char.ofNat 60 then rich ++ "&lt;"
      else if ch = Char.ofNat 62 then rich ++ "&gt;"
      else if ch = Char.ofNat 38 then rich ++ "&amp;"
      else if ch = Char.ofNat 34 then rich ++ "&quot;"
      else rich.push ch)
    ""

/-- The column separator `plain_sep_` (`tap_parameter_dialog.cpp:193`). -/
def plain_sep_ : String := "  "

/-- The lazy extension step of the width pass
(`tap_parameter_dialog.cpp:212-214`): when `col_widths` has no entry at
`col` yet, append the length of header label `col` as its initial width. -/
def pass1Extend (headers : List String) (col_widths : List Nat) (col : Nat) : List Nat :=
  if col_widths.length ≤ col then col_widths ++ [(headerText headers col).length]
  else col_widths

/-- The conditional update of `pass1Row` for one cell
(`tap_parameter_dialog.cpp:215-217`): a String cell raises entry `col` to
the maximum of its current value and the unpadded plain rendering of the
cell; every other type leaves the widths unchanged. -/
def pass1Update (col_widths : List Nat) (col : Nat) (var : Cell) : List Nat :=
  if var.isString
  then col_widths.set col (max (col_widths.getD col 0) (itemDataToPlain var 0).length)
  else col_widths

/-- One row of the plain-format width pass
(`tap_parameter_dialog.cpp:209-219`): `col` counts the cell position; each
cell first lazily extends the width list, then conditionally updates its
entry.  The call `itemDataToPlain var 0` inside `pass1Update` is the source
call `itemDataToPlain(var)`; the defaulted width argument (declared in the
header file of the class) pads nothing, so it returns the bare
`plain_str`. -/
def pass1Row (headers : List String) : List Nat → Nat → List Cell → List Nat
  | col_widths, _, [] => col_widths
  | col_widths, col, var :: rest =>
      pass1Row headers (pass1Update (pass1Extend headers col_widths col) col var) (col + 1) rest

/-- The whole width pass (`while (*width_it)` loop,
`tap_parameter_dialog.cpp:208-221`): fold `pass1Row` over every visible row,
starting from the empty width list. -/
def computeColWidths (headers : List String) (rows : List (List Cell)) : List Nat :=
  rows.foldl (fun w tid => pass1Row headers w 0 tid) []

/-- The plain-format header block (`tap_parameter_dialog.cpp:204-240`):
returns the emitted prefix (`=` line, `"title - file:"` line, header label
line, `-` line), the buffered footer, and the computed column widths.  The
label loop runs while `col < columnCount() && col < col_widths.length()`,
which is a take of the first `min` labels. -/
def plainHeaderSection (td : TreeData) : String × String × List Nat :=
  let col_widths := computeColWidths td.headers td.rows
  let plain_header := qjoin plain_sep_ (td.headers.take (min td.headers.length col_widths.length))
  let top_separator := String.mk (List.replicate plain_header.length (Char.ofNat 61)) ++ "\n"
  let file_header := td.title ++ " - " ++ td.fileName ++ ":\n"
  let footer := String.mk (List.replicate plain_header.length (Char.ofNat 45)) ++ "\n"
  (top_separator ++ file_header ++ (plain_header ++ "\n") ++ footer, footer, col_widths)

/-- The CSV header line (`tap_parameter_dialog.cpp:242-252`): every header
label double-quoted, the parts joined by commas, then a newline. -/
def csvHeaderLine (td : TreeData) : String :=
  qjoin "," (td.headers.map (fun h => "\"" ++ h ++ "\"")) ++ "\n"

/-- The XML prologue (`tap_parameter_dialog.cpp:254-278`): declaration,
`table` and escaped `title`, and a `thead` row with one escaped `entry` per
header label. -/
def xmlHeaderString (td : TreeData) : String :=
  "<?xml version=\"1.0\" encoding=\"UTF-8\"?>\n"
    ++ ("<table>\n<title>" ++ toHtmlEscaped td.title ++ "</title>\n")
    ++ "<thead>\n<row>\n"
    ++ strConcat (td.headers.map (fun h => "  <entry>" ++ toHtmlEscaped h ++ "</entry>\n"))
    ++ "</row>\n</thead>\n"
    ++ "<tbody>\n"

/-- The percent character that starts a `QString::arg` place marker. -/
def pctChar : Char := Char.ofNat 37

/-- An ASCII decimal digit of a place marker.  `QChar::digitValue` also
accepts the other Unicode decimal digits; they never occur in the concrete
format strings of this file, so the model is restricted to ASCII. -/
def isMarkerDigit (c : Char) : Bool := 48 ≤ c.toNat && c.toNat ≤ 57

/-- The numeric value of an ASCII digit character. -/
def digitVal (c : Char) : Nat := c.toNat - 48

/-- Folds a newly found marker number into the running minimum. -/
def minMerge (v : Nat) : Option Nat → Option Nat
  | none => some v
  | some w => some (min v w)

/-- The scanner state of the place-marker parser: plain text, just behind a
`%`, behind `%L`, or behind `%` (or `%L`) and one digit whose character is
retained for verbatim copying. -/
inductive ArgScanState where
  | normal
  | sawPct
  | sawPctL
  | pending (lflag : Bool) (d : Char)

/-- The characters consumed so far in a `pending` state. -/
def pendingChars (lflag : Bool) (d : Char) : List Char :=
  if lflag then [pctChar, Char.ofNat 76, d] else [pctChar, d]

/-- Models Qt `findArgEscapes` one character at a time: the minimum over all
place markers.  A marker is `%`, an optional `L`, then one or two digits
(greedy); a `%` not followed by a marker is plain text, and the character
that failed to parse is reconsidered as ordinary text (so `%%1` contains
the marker `1`). -/
def findMinAux : ArgScanState → List Char → Option Nat
  | .normal, [] => none
  | .sawPct, [] => none
  | .sawPctL, [] => none
  | .pending _ d, [] => some (digitVal d)
  | .normal, c :: rest =>
      if c = pctChar then findMinAux .sawPct rest else findMinAux .normal rest
  | .sawPct, c :: rest =>
      if c = Char.ofNat 76 then findMinAux .sawPctL rest
      else if isMarkerDigit c then findMinAux (.pending false c) rest
      else if c = pctChar then findMinAux .sawPct rest
      else findMinAux .normal rest
  | .sawPctL, c :: rest =>
      if isMarkerDigit c then findMinAux (.pending true c) rest
      else if c = pctChar then findMinAux .sawPct rest
      else findMinAux .normal rest
  | .pending _ d, c :: rest =>
      if isMarkerDigit c then minMerge (10 * digitVal d + digitVal c) (findMinAux .normal rest)
      else minMerge (digitVal d)
        (if c = pctChar then findMinAux .sawPct rest else findMinAux .normal rest)

/-- The lowest place-marker number occurring in the character sequence. -/
def findMinMarker (l : List Char) : Option Nat := findMinAux .normal l

/-- Models Qt `replaceArgEscapes` for a string argument at zero field
width, one character at a time: every occurrence of the marker numbered `m`
(with or without the `L` prefix, which only selects locale formatting of
numbers and is immaterial for a string argument) is replaced by `a`; all
other text, including markers with a different number, is copied
verbatim. -/
def replaceAux (m : Nat) (a : List Char) : ArgScanState → List Char → List Char
  | .normal, [] => []
  | .sawPct, [] => [pctChar]
  | .sawPctL, [] => [pctChar, Char.ofNat 76]
  | .pending lflag d, [] => if digitVal d = m then a else pendingChars lflag d
  | .normal, c :: rest =>
      if c = pctChar then replaceAux m a .sawPct rest
      else c :: replaceAux m a .normal rest
  | .sawPct, c :: rest =>
      if c = Char.ofNat 76 then replaceAux m a .sawPctL rest
      else if isMarkerDigit c then replaceAux m a (.pending false c) rest
      else if c = pctChar then pctChar :: replaceAux m a .sawPct rest
      else pctChar :: c :: replaceAux m a .normal rest
  | .sawPctL, c :: rest =>
      if isMarkerDigit c then replaceAux m a (.pending true c) rest
      else if c = pctChar then pctChar :: (Char.ofNat 76) :: replaceAux m a .sawPct rest
      else pctChar :: (Char.ofNat 76) :: c :: replaceAux m a .normal rest
  | .pending lflag d, c :: rest =>
      if isMarkerDigit c then
        (if 10 * digitVal d + digitVal c = m then a else pendingChars lflag d ++ [c])
          ++ replaceAux m a .normal rest
      else
        (if digitVal d = m then a else pendingChars lflag d)
          ++ (if c = pctChar then replaceAux m a .sawPct rest
              else c :: replaceAux m a .normal rest)

/-- Replacement of every occurrence of marker `m` by `a`. -/
def replaceMarker (m : Nat) (a : List Char) (l : List Char) : List Char :=
  replaceAux m a .normal l

/-- Models the single-string overload `QString::arg(const QString)` at the
default field width: replace every occurrence of the lowest-numbered place
marker by `a`; with no marker present Qt warns and returns the string
unchanged.  Chained `.arg` calls therefore rescan the result of the
previous substitution, including text substituted by it. -/
def qstringArgStr (fmt : String) (a : String) : String :=
  match findMinMarker fmt.data with
  | none => fmt
  | some m => String.mk (replaceMarker m a.data fmt.data)

/-- The YAML preamble (`tap_parameter_dialog.cpp:282-289`): `"---\n"`, then
the chained substitution
`QString("Description: \"%1\"\nFile: \"%2\"\nItems:\n").arg(windowSubtitle()).arg(cap_file_.fileName())`.
The second `.arg` rescans the string produced by the first, so place
markers inside the title are seen by the file-name substitution. -/
def yamlHeaderString (td : TreeData) : String :=
  "---\n"
    ++ qstringArgStr (qstringArgStr "Description: \"%1\"\nFile: \"%2\"\nItems:\n" td.title)
      td.fileName

/-- One CSV data field (`tap_parameter_dialog.cpp:323-329`): String cells
are wrapped in double quotes with no escaping of the content, every other
type is rendered by `QVariant::toString()` unquoted. -/
def csvField (var : Cell) : String :=
  if var.isString then "\"" ++ var.toQString ++ "\"" else var.toQString

/-- One XML body entry line (`tap_parameter_dialog.cpp:336-344`): the cell
text HTML-escaped regardless of the cell type. -/
def xmlEntry (var : Cell) : String :=
  "  <entry>" ++ toHtmlEscaped var.toQString ++ "</entry>\n"

/-- The YAML rendering of one cell value (`tap_parameter_dialog.cpp:353-358`):
String values double-quoted, other types bare. -/
def yamlEntry (var : Cell) : String :=
  if var.isString then "\"" ++ var.toQString ++ "\"" else var.toQString

/-- The YAML body loop over one row (`tap_parameter_dialog.cpp:350-362`):
each cell produces the line `"  %1 %2: %3\n"` with `%1` the indent marker
(`"-"` for the first cell, one space afterwards), `%2` the header label at
the cell position and `%3` the rendered value. -/
def yamlRowLine (headers : List String) : Nat → String → List Cell → String
  | _, _, [] => ""
  | col, indent, var :: rest =>
      ("  " ++ indent ++ " " ++ headerText headers col ++ ": " ++ yamlEntry var ++ "\n")
        ++ yamlRowLine headers (col + 1) " " rest

/-- The plain-format parts of one row (`tap_parameter_dialog.cpp:313-317`):
cell `i` is rendered by `itemDataToPlain(var, col_widths[i])`. -/
def plainRowParts (col_widths : List Nat) : Nat → List Cell → List String
  | _, [] => []
  | i, var :: rest => itemDataToPlain var (col_widths.getD i 0) :: plainRowParts col_widths (i + 1) rest

/-- The per-row `line` of the data loop of `getTreeAsString`
(`tap_parameter_dialog.cpp:310-367`), for a row already known to have at
least one cell. -/
def rowLine (headers : List String) (col_widths : List Nat) (format : StFormatType) (tid : List Cell) : String :=
  match format with
  | .plain => qjoin plain_sep_ (plainRowParts col_widths 0 tid) ++ "\n"
  | .csv => qjoin "," (tid.map csvField) ++ "\n"
  | .xml => "<row>\n" ++ strConcat (tid.map xmlEntry) ++ "</row>\n"
  | .yaml => yamlRowLine headers 0 "-" tid

/-- Embeds `TapParameterDialog::getTreeAsString`
(`tap_parameter_dialog.cpp:194-376`): the format switch produces the emitted
header block, the buffered footer and (for plain) the column widths; the
`while (*it)` data loop appends one `line` per visible row, skipping rows
with fewer than one cell; finally the buffered footer is appended. -/
def getTreeAsString (td : TreeData) (format : StFormatType) : String :=
  let hdr : String × String × List Nat :=
    match format with
    | .plain => plainHeaderSection td
    | .csv => (csvHeaderLine td, "", [])
    | .xml => (xmlHeaderString td, "</tbody>\n</table>\n", [])
    | .yaml => (yamlHeaderString td, "", [])
  (td.rows.foldl
    (fun ba tid => if tid.length < 1 then ba else ba ++ rowLine td.headers hdr.2.2 format tid)
    hdr.1) ++ hdr.2.1

/-! ## The dialog registry -/

/-- The factory type `tpdCreator`: `(parent, cfg_str, arg, cf)` to a dialog
instance.  The Qt types `QWidget`, `CaptureFile` and `TapParameterDialog`
are opaque to the registry, so they are type parameters. -/
def tpdCreator (Widget CaptureFile Dialog : Type) : Type :=
  Widget → String → String → CaptureFile → Dialog

/-- Models `QHash::contains`. -/
def qhashContains (h : List (String × κ)) (k : String) : Bool :=
  h.any (fun p => p.1 == k)

/-- Models `QHash` lookup of the value stored under `k`. -/
def qhashLookup (h : List (String × κ)) (k : String) : Option κ :=
  (h.find? (fun p => p.1 == k)).map (fun p => p.2)

/-- Models the assignment `hash[k] = v` on a `QHash`: replace the value of
an existing entry for `k`, otherwise add a new entry.  Entry order is
irrelevant to every observation made through `qhashLookup`. -/
def qhashInsert (h : List (String × κ)) (k : String) (v : κ) : List (String × κ) :=
  if qhashContains h k then h.map (fun p => if p.1 == k then (k, v) else p)
  else h ++ [(k, v)]

/-- Embeds the registry effect of `TapParameterDialog::registerDialog`
(`tap_parameter_dialog.cpp:104-122`): `cfg_str_to_creator_[cfg_str] = creator`.
The other statements of the function (the `register_stat_tap_ui` call and
the statistics-menu `QAction`) act on external collaborators and carry no
registry state. -/
def registerDialog (h : List (String × κ)) (cfg_abbr : String) (creator : κ) : List (String × κ) :=
  qhashInsert h cfg_abbr creator

/-- Embeds `TapParameterDialog::showTapParameterStatistics`
(`tap_parameter_dialog.cpp:124-131`): when the registry contains `cfg_str`,
invoke the stored creator with `(parent, cfg_str, arg, cf)` and return the
instance; otherwise return `NULL`, embedded as `none`.  The inner `none`
branch is unreachable because `contains` guarantees a stored value. -/
def showTapParameterStatistics (h : List (String × tpdCreator Widget CaptureFile Dialog))
    (parent : Widget) (cf : CaptureFile) (cfg_str arg : String) : Option Dialog :=
  if qhashContains h cfg_str then
    match qhashLookup h cfg_str with
    | some creator => some (creator parent cfg_str arg cf)
    | none => none
  else none

/-! ## Specification-side definitions

The following definitions transcribe the wording of the specification (and
of the claims) rather than the source loops; the claim theorems relate the
source embedding above to these. -/

/-- The column width the specification describes for column `i`: start from
the length of header label `i`; every visible row whose cell at position `i`
is a String raises the width to the maximum of the current width and the
length of the cell text; other cells change nothing. -/
def specColWidth (headers : List String) (rows : List (List Cell)) (i : Nat) : Nat :=
  rows.foldl
    (fun w r =>
      match r.get? i with
      | some c => if c.isString then max w c.plainText.length else w
      | none => w)
    (headers.getD i "").length

/-- Decidable form of : no visible row has a String cell at position `i`. -/
def rowsNoStringAt (rows : List (List Cell)) (i : Nat) : Bool :=
  rows.all (fun r =>
    match r.get? i with
    | some c => !c.isString
    | none => true)

/-- Left alignment into a field of `w` characters, as the specification
words it for String cells. -/
def specAlignLeft (s : String) (w : Nat) : String := s ++ spaces (w - s.length)

/-- Right alignment into a field of `w` characters, as the specification
words it for numeric and float cells. -/
def specAlignRight (s : String) (w : Nat) : String := spaces (w - s.length) ++ s

/-- The specified rendering of one plain cell: right-aligned into its column
width for numeric and float types, left-aligned for String. -/
def specAlignCell (w : Nat) (c : Cell) : String :=
  if c.isString then specAlignLeft c.plainText w else specAlignRight c.plainText w

/-- The specified plain row: each cell aligned into the width of its
position, the parts joined with exactly two spaces, terminated by a
newline. -/
def specPlainRowLine (widths : List Nat) (r : List Cell) : String :=
  qjoin "  " (r.enum.map (fun p => specAlignCell (widths.getD p.1 0) p.2)) ++ "\n"

/-- Splitting a character list on a separator character (the split half of
the CSV round-trip stated by the claim). -/
def splitCharsOn (sep : Char) : List Char → List (List Char)
  | [] => [[]]
  | c :: cs =>
      if c = sep then [] :: splitCharsOn sep cs
      else
        match splitCharsOn sep cs with
        | [] => [[c]]
        | p :: ps => (c :: p) :: ps

/-- Splitting a string on commas. -/
def splitOnComma (s : String) : List String :=
  (splitCharsOn (Char.ofNat 44) s.data).map String.mk

/-- Stripping one surrounding pair of double quotes from a field, when
present. -/
def stripQuotes (s : String) : String :=
  if 2 ≤ s.data.length ∧ s.data.head? = some (Char.ofNat 34) ∧ s.data.getLast? = some (Char.ofNat 34)
  then String.mk (s.data.drop 1).dropLast
  else s

/-- The per-character replacement table the amended XML claim states: `&`,
`<`, `>` and `"` become entities, every other character stands for
itself. -/
def specEscapeChar (ch : Char) : String :=
  if ch = Char.ofNat 38 then "&amp;"
  else if ch = Char.ofNat 60 then "&lt;"
  else if ch = Char.ofNat 62 then "&gt;"
  else if ch = Char.ofNat 34 then "&quot;"
  else String.mk [ch]

/-- Escaping as replacement of each occurrence, character by character. -/
def specEscape4 (s : String) : String := strConcat (s.data.map specEscapeChar)

/-- One specified XML entry line for a rendered text. -/
def specXmlEntryLine (s : String) : String := "  <entry>" ++ specEscape4 s ++ "</entry>\n"

/-- The specified XML body row: one escaped entry per cell, regardless of
the cell type. -/
def specXmlRow (r : List Cell) : String :=
  "<row>\n" ++ strConcat (r.map (fun c => specXmlEntryLine c.toQString)) ++ "</row>\n"

/-- The amended XML output shape: declaration, escaped title, one escaped
entry per header label, then one row per visible non-empty data row, closed
by the tbody and table end tags. -/
def specXmlOutput (td : TreeData) : String :=
  "<?xml version=\"1.0\" encoding=\"UTF-8\"?>\n"
    ++ "<table>\n<title>" ++ specEscape4 td.title ++ "</title>\n"
    ++ "<thead>\n<row>\n"
    ++ strConcat (td.headers.map specXmlEntryLine)
    ++ "</row>\n</thead>\n<tbody>\n"
    ++ strConcat (td.rows.map (fun r => if r = [] then "" else specXmlRow r))
    ++ "</tbody>\n</table>\n"

/-- The amended YAML row shape: the first cell on a line
`"  - <label>: <value>"`, every further cell on a line
`"    <label>: <value>"` (the dash replaced by a space, keeping the labels
aligned), String values double-quoted and other values bare. -/
def specYamlRow (headers : List String) (r : List Cell) : String :=
  match r with
  | [] => ""
  | c :: rest =>
      ("  - " ++ headers.getD 0 "" ++ ": " ++ yamlEntry c ++ "\n")
        ++ strConcat ((List.enumFrom 1 rest).map
            (fun p => "    " ++ headers.getD p.1 "" ++ ": " ++ yamlEntry p.2 ++ "\n"))

/-- The amended YAML output shape. -/
def specYamlOutput (td : TreeData) : String :=
  "---\n" ++ "Description: \"" ++ td.title ++ "\"\nFile: \"" ++ td.fileName ++ "\"\nItems:\n"
    ++ strConcat (td.rows.map (fun r => if r = [] then "" else specYamlRow td.headers r))

/-- The YAML row shape exactly as the claim words it: first cell rendered as
`"- <label>: <value>"`, each subsequent cell as `"  <label>: <value>"`
indented two spaces. -/
def claimedYamlRow (headers : List String) (r : List Cell) : String :=
  match r with
  | [] => ""
  | c :: rest =>
      ("- " ++ headers.getD 0 "" ++ ": " ++ yamlEntry c ++ "\n")
        ++ strConcat ((List.enumFrom 1 rest).map
            (fun p => "  " ++ headers.getD p.1 "" ++ ": " ++ yamlEntry p.2 ++ "\n"))

/-- The YAML output exactly as the claim words it. -/
def claimedYamlOutput (td : TreeData) : String :=
  "---\n" ++ "Description: \"" ++ td.title ++ "\"\nFile: \"" ++ td.fileName ++ "\"\nItems:\n"
    ++ strConcat (td.rows.map (fun r => if r = [] then "" else claimedYamlRow td.headers r))

/-! ## Concrete inputs for witnesses and counterexamples -/

/-- The end-to-end example of the specification: headers Name and Count,
rows alice,3 and bob,15. -/
def tdDemo : TreeData :=
  { title := "Demo", fileName := "cap.pcap", headers := ["Name", "Count"],
    rows := [[Cell.str "alice", Cell.uint 3], [Cell.str "bob", Cell.uint 15]] }

/-- The apostrophe character. -/
def apos : Char := Char.ofNat 39

/-- A tree whose single cell text contains an apostrophe, an ampersand and a
less-than sign. -/
def tdQuote : TreeData :=
  { title := "T", fileName := "f", headers := ["H"],
    rows := [[Cell.str ("a" ++ String.mk [apos] ++ "&<b")]] }

/-- A tree whose visible rows all carry zero cells (a report that keeps the
default `treeItemData`). -/
def tdEmptyRows : TreeData :=
  { title := "T", fileName := "f.pcap", headers := ["A", "B"], rows := [[], []] }

/-- A first concrete factory. -/
def creatorA : tpdCreator Unit Unit Nat := fun _ _ _ _ => 1

/-- A second concrete factory for the same key. -/
def creatorB : tpdCreator Unit Unit Nat := fun _ _ _ _ => 2

/-! ## Helper lemmas -/

theorem strExt {s t : String} (h : s.data = t.data) : s = t := by
  cases s
  cases t
  exact congrArg String.mk h

theorem append_empty_str (s : String) : s ++ "" = s := by
  apply strExt
  simp [String.data_append]

theorem empty_append_str (s : String) : "" ++ s = s := by
  apply strExt
  simp [String.data_append]

theorem strConcat_cons (s : String) (l : List String) :
    strConcat (s :: l) = s ++ strConcat l := rfl

theorem strConcat_append (l1 l2 : List String) :
    strConcat (l1 ++ l2) = strConcat l1 ++ strConcat l2 := by
  induction l1 with
  | nil => simp [strConcat, empty_append_str]
  | cons s rest ih => simp [strConcat, ih, String.append_assoc]

theorem foldl_append_eq {α : Type} (rows : List α) (f : α → String) (acc : String) :
    rows.foldl (fun ba x => ba ++ f x) acc = acc ++ strConcat (rows.map f) := by
  induction rows generalizing acc with
  | nil => simp [strConcat, append_empty_str]
  | cons r rest ih => simp [strConcat, ih, String.append_assoc]

theorem foldl_skip_empty (rows : List (List Cell)) (g : List Cell → String) (acc : String) :
    rows.foldl (fun ba tid => if tid.length < 1 then ba else ba ++ g tid) acc
      = acc ++ strConcat (rows.map (fun tid => if tid = [] then "" else g tid)) := by
  have hfun : (fun (ba : String) (tid : List Cell) => if tid.length < 1 then ba else ba ++ g tid)
      = fun ba tid => ba ++ (if tid = [] then "" else g tid) := by
    funext ba tid
    cases tid <;> simp [append_empty_str]
  rw [hfun, foldl_append_eq]

/-! ## Registry lemmas -/

theorem lookup_isSome_eq_contains (h : List (String × κ)) (k : String) :
    (qhashLookup h k).isSome = qhashContains h k := by
  induction h with
  | nil => rfl
  | cons p t ih =>
      by_cases hp : p.1 == k
      · simp [qhashLookup, qhashContains, List.find?, hp]
      · simp only [qhashLookup, qhashContains, List.find?, hp, List.any_cons, Bool.false_or] at *
        exact ih

theorem lookup_map_replace_self (t : List (String × κ)) (k : String) (v : κ) :
    qhashLookup (t.map (fun p => if p.1 == k then (k, v) else p)) k
      = (qhashLookup t k).map (fun _ => v) := by
  induction t with
  | nil => rfl
  | cons p t ih =>
      by_cases hp : p.1 == k
      · simp [qhashLookup, List.find?, hp]
      · simpa [qhashLookup, List.find?, hp] using ih

theorem lookup_map_replace_ne (t : List (String × κ)) (k k' : String) (v : κ)
    (hne : k' ≠ k) :
    qhashLookup (t.map (fun p => if p.1 == k then (k, v) else p)) k'
      = qhashLookup t k' := by
  induction t with
  | nil => rfl
  | cons p t ih =>
      by_cases hp : p.1 == k
      · have hp1 : p.1 = k := by simpa using hp
        have hkk : (k == k') = false := by
          simp only [beq_eq_false_iff_ne, ne_eq]
          exact fun hcon => hne hcon.symm
        have hpk : (p.1 == k') = false := by
          rw [hp1]
          exact hkk
        simpa [qhashLookup, List.find?, hp, hkk, hpk] using ih
      · by_cases hq : p.1 == k'
        · simp [qhashLookup, List.find?, hp, hq]
        · simpa [qhashLookup, List.find?, hp, hq] using ih

theorem lookup_append_single (t : List (String × κ)) (k k' : String) (v : κ) :
    qhashLookup (t ++ [(k, v)]) k'
      = if k == k' then some ((qhashLookup t k').getD v) else qhashLookup t k' := by
  induction t with
  | nil =>
      by_cases hk : k == k' <;> simp [qhashLookup, List.find?, hk]
  | cons p t ih =>
      by_cases hq : p.1 == k'
      · by_cases hk : k == k' <;> simp [qhashLookup, List.find?, hq, hk]
      · simpa [qhashLookup, List.find?, hq] using ih

theorem qhashLookup_insert_self (h : List (String × κ)) (k : String) (v : κ) :
    qhashLookup (qhashInsert h k v) k = some v := by
  unfold qhashInsert
  by_cases hc : qhashContains h k
  · rw [if_pos hc, lookup_map_replace_self]
    have hs : (qhashLookup h k).isSome := by
      rw [lookup_isSome_eq_contains]
      exact hc
    cases hl : qhashLookup h k with
    | none => rw [hl] at hs; simp at hs
    | some w => simp
  · rw [if_neg hc, lookup_append_single]
    have hs : (qhashLookup h k).isSome = false := by
      rw [lookup_isSome_eq_contains]
      simpa using hc
    cases hl : qhashLookup h k with
    | none => simp
    | some w => rw [hl] at hs; simp at hs

theorem qhashLookup_insert_ne (h : List (String × κ)) (k k' : String) (v : κ)
    (hne : k' ≠ k) : qhashLookup (qhashInsert h k v) k' = qhashLookup h k' := by
  unfold qhashInsert
  by_cases hc : qhashContains h k
  · rw [if_pos hc, lookup_map_replace_ne h k k' v hne]
  · rw [if_neg hc, lookup_append_single]
    have hkk : (k == k') = false := by
      simp only [beq_eq_false_iff_ne, ne_eq]
      exact fun hcon => hne hcon.symm
    rw [hkk]
    simp

theorem keys_map_replace (t : List (String × κ)) (k : String) (v : κ) :
    (t.map (fun p => if p.1 == k then (k, v) else p)).map Prod.fst = t.map Prod.fst := by
  induction t with
  | nil => rfl
  | cons p t ih =>
      by_cases hp : p.1 == k
      · have hp1 : p.1 = k := by simpa using hp
        simp only [List.map_cons, if_pos hp, ih]
        rw [hp1]
      · simp only [List.map_cons, if_neg hp, ih]

theorem keys_insert_contains (h : List (String × κ)) (k : String) (v : κ)
    (hc : qhashContains h k) :
    (qhashInsert h k v).map Prod.fst = h.map Prod.fst := by
  unfold qhashInsert
  rw [if_pos hc]
  exact keys_map_replace h k v

theorem keys_insert_nodup (h : List (String × κ)) (k : String) (v : κ)
    (hn : (h.map Prod.fst).Nodup) :
    ((qhashInsert h k v).map Prod.fst).Nodup := by
  by_cases hc : qhashContains h k
  · rw [keys_insert_contains h k v hc]
    exact hn
  · unfold qhashInsert
    rw [if_neg hc]
    rw [List.map_append, List.nodup_append]
    refine ⟨hn, by simp, ?_⟩
    intro a ha hb
    simp at hb
    subst hb
    simp only [List.mem_map] at ha
    obtain ⟨p, hp, hpk⟩ := ha
    apply hc
    unfold qhashContains
    rw [List.any_eq_true]
    exact ⟨p, hp, by simp [hpk]⟩

/-! ## Claims C7 and C8: the registry -/

/-- C7: registering a descriptor for an already-registered key silently
replaces the prior entry, so a subsequent create for that key invokes the
most recently registered factory and never an earlier one; keys stay unique
and registration order is otherwise irrelevant to every lookup. -/
theorem claim_C7 {Widget CaptureFile Dialog : Type}
    (reg : List (String × tpdCreator Widget CaptureFile Dialog)) (k : String)
    (c1 c2 : tpdCreator Widget CaptureFile Dialog)
    (parent : Widget) (cf : CaptureFile) (arg : String) :
    qhashLookup (registerDialog (registerDialog reg k c1) k c2) k = some c2
    ∧ showTapParameterStatistics (registerDialog (registerDialog reg k c1) k c2) parent cf k arg
        = some (c2 parent k arg cf)
    ∧ ((reg.map Prod.fst).Nodup → ((registerDialog reg k c2).map Prod.fst).Nodup)
    ∧ (∀ (k2 : String) (c3 : tpdCreator Widget CaptureFile Dialog) (q : String), k ≠ k2 →
        qhashLookup (registerDialog (registerDialog reg k c2) k2 c3) q
          = qhashLookup (registerDialog (registerDialog reg k2 c3) k c2) q) := by
  have hl : qhashLookup (registerDialog (registerDialog reg k c1) k c2) k = some c2 :=
    qhashLookup_insert_self _ k c2
  have hcont : qhashContains (registerDialog (registerDialog reg k c1) k c2) k := by
    rw [← lookup_isSome_eq_contains, hl]
    rfl
  refine ⟨hl, ?_, ?_, ?_⟩
  · unfold showTapParameterStatistics
    rw [if_pos hcont, hl]
  · intro hn
    exact keys_insert_nodup reg k c2 hn
  · intro k2 c3 q hne
    simp only [registerDialog]
    by_cases hqk : q = k
    · subst hqk
      rw [qhashLookup_insert_ne _ k2 q c3 hne, qhashLookup_insert_self,
        qhashLookup_insert_self]
    · by_cases hqk2 : q = k2
      · subst hqk2
        rw [qhashLookup_insert_self, qhashLookup_insert_ne _ k q c2 hqk,
          qhashLookup_insert_self]
      · rw [qhashLookup_insert_ne _ k2 q c3 hqk2, qhashLookup_insert_ne _ k q c2 hqk,
          qhashLookup_insert_ne _ k q c2 hqk, qhashLookup_insert_ne _ k2 q c3 hqk2]

/-- Witness for C7 at a concrete registry: two registrations under the key
conv, then a lookup, a create, a uniqueness check and an order swap with the
key http. -/
theorem claim_C7_witness :
    qhashLookup (registerDialog (registerDialog [] "conv" creatorA) "conv" creatorB) "conv"
        = some creatorB
    ∧ showTapParameterStatistics (registerDialog (registerDialog [] "conv" creatorA) "conv" creatorB)
        () () "conv" "tcp" = some (creatorB () "conv" "tcp" ())
    ∧ (((registerDialog ([] : List (String × tpdCreator Unit Unit Nat)) "conv" creatorB).map
        Prod.fst).Nodup)
    ∧ qhashLookup
        (registerDialog (registerDialog ([] : List (String × tpdCreator Unit Unit Nat)) "conv" creatorB)
          "http" creatorA) "conv"
        = qhashLookup (registerDialog (registerDialog [] "http" creatorA) "conv" creatorB) "conv" := by
  obtain ⟨h1, h2, h3, h4⟩ :=
    claim_C7 ([] : List (String × tpdCreator Unit Unit Nat)) "conv" creatorA creatorB () () "tcp"
  exact ⟨h1, h2, h3 (by simp), h4 "http" creatorA "conv" (by decide)⟩

/-- C8: create on an absent key returns none without any error; create on a
present key invokes the stored factory with the host widget, the key, the
filter argument and the capture file, and returns the produced instance. -/
theorem claim_C8 {Widget CaptureFile Dialog : Type}
    (reg : List (String × tpdCreator Widget CaptureFile Dialog))
    (parent : Widget) (cf : CaptureFile) (k arg : String) :
    (qhashLookup reg k = none → showTapParameterStatistics reg parent cf k arg = none)
    ∧ (∀ c, qhashLookup reg k = some c →
        showTapParameterStatistics reg parent cf k arg = some (c parent k arg cf)) := by
  constructor
  · intro hl
    have hcont : qhashContains reg k = false := by
      rw [← lookup_isSome_eq_contains, hl]
      rfl
    unfold showTapParameterStatistics
    rw [if_neg (by simp [hcont])]
  · intro c hl
    have hcont : qhashContains reg k := by
      rw [← lookup_isSome_eq_contains, hl]
      rfl
    unfold showTapParameterStatistics
    rw [if_pos hcont, hl]

/-- Witness for C8: the empty registry yields none for an unknown key, and a
concrete one-entry registry yields the factory result. -/
theorem claim_C8_witness :
    showTapParameterStatistics ([] : List (String × tpdCreator Unit Unit Nat)) () () "zzz" "a" = none
    ∧ showTapParameterStatistics (registerDialog ([] : List (String × tpdCreator Unit Unit Nat))
        "conv" creatorB) () () "conv" "a" = some (creatorB () "conv" "a" ()) := by
  refine ⟨(claim_C8 [] () () "zzz" "a").1 rfl, (claim_C8 _ () () "conv" "a").2 creatorB rfl⟩

/-! ## Width-pass lemmas -/

theorem itemDataToPlain_zero (c : Cell) : itemDataToPlain c 0 = c.plainText := by
  unfold itemDataToPlain
  simp

theorem getD_set_self {l : List Nat} {i : Nat} (h : i < l.length) (a : Nat) :
    (l.set i a).getD i 0 = a := by
  rw [List.getD_eq_getElem?_getD, List.getElem?_set_self h]
  rfl

theorem getD_set_ne {l : List Nat} {i j : Nat} (h : i ≠ j) (a : Nat) :
    (l.set i a).getD j 0 = l.getD j 0 := by
  rw [List.getD_eq_getElem?_getD, List.getElem?_set_ne h, ← List.getD_eq_getElem?_getD]

theorem pass1Extend_length (headers : List String) {w : List Nat} {col : Nat}
    (h : col ≤ w.length) :
    (pass1Extend headers w col).length = max w.length (col + 1) := by
  unfold pass1Extend
  split
  · simp only [List.length_append, List.length_singleton]
    omega
  · omega

theorem pass1Update_length (w : List Nat) (col : Nat) (var : Cell) :
    (pass1Update w col var).length = w.length := by
  unfold pass1Update
  split
  · simp
  · rfl

theorem pass1Extend_getD_lt (headers : List String) {w : List Nat} {col i : Nat}
    (h : i < w.length) :
    (pass1Extend headers w col).getD i 0 = w.getD i 0 := by
  unfold pass1Extend
  split
  · exact List.getD_append _ _ _ _ h
  · rfl

theorem pass1Extend_getD_col (headers : List String) {w : List Nat} {col : Nat}
    (h : col ≤ w.length) :
    (pass1Extend headers w col).getD col 0
      = if col < w.length then w.getD col 0 else (headerText headers col).length := by
  unfold pass1Extend
  by_cases hle : w.length ≤ col
  · have hcol : w.length = col := by omega
    rw [if_pos hle, if_neg (by omega)]
    rw [List.getD_append_right _ _ _ _ (by omega)]
    simp [hcol]
  · rw [if_neg hle, if_pos (by omega)]

theorem pass1Update_getD_self {w : List Nat} {col : Nat} (h : col < w.length) (var : Cell) :
    (pass1Update w col var).getD col 0
      = if var.isString then max (w.getD col 0) (itemDataToPlain var 0).length
        else w.getD col 0 := by
  unfold pass1Update
  split
  · rw [getD_set_self h]
  · rfl

theorem pass1Update_getD_ne {w : List Nat} {col i : Nat} (h : i ≠ col) (var : Cell) :
    (pass1Update w col var).getD i 0 = w.getD i 0 := by
  unfold pass1Update
  split
  · exact getD_set_ne (fun hcon => h hcon.symm) _
  · rfl

theorem pass1Step_getD_ne (headers : List String) {w : List Nat} {col i : Nat}
    (h : col ≤ w.length) (hne : i ≠ col) (var : Cell) :
    (pass1Update (pass1Extend headers w col) col var).getD i 0 = w.getD i 0 := by
  rw [pass1Update_getD_ne hne]
  by_cases hlt : i < w.length
  · exact pass1Extend_getD_lt headers hlt
  · rw [List.getD_eq_default _ _ (by omega : w.length ≤ i)]
    apply List.getD_eq_default
    rw [pass1Extend_length headers h]
    omega

theorem pass1Row_length (headers : List String) :
    ∀ (cells : List Cell) (w : List Nat) (col : Nat), col ≤ w.length →
      (pass1Row headers w col cells).length = max w.length (col + cells.length) := by
  intro cells
  induction cells with
  | nil =>
      intro w col h
      simp only [pass1Row, List.length_nil]
      omega
  | cons c rest ih =>
      intro w col h
      have hlen : (pass1Update (pass1Extend headers w col) col c).length
          = max w.length (col + 1) := by
        rw [pass1Update_length, pass1Extend_length headers h]
      rw [show pass1Row headers w col (c :: rest)
          = pass1Row headers (pass1Update (pass1Extend headers w col) col c) (col + 1) rest
          from rfl]
      rw [ih _ (col + 1) (by omega), hlen]
      simp only [List.length_cons]
      omega

theorem pass1Row_getD (headers : List String) :
    ∀ (cells : List Cell) (w : List Nat) (col i : Nat), col ≤ w.length →
      (pass1Row headers w col cells).getD i 0 =
        match (if col ≤ i then cells.get? (i - col) else none) with
        | some c =>
            if c.isString
            then max (if i < w.length then w.getD i 0 else (headerText headers i).length)
              c.plainText.length
            else if i < w.length then w.getD i 0 else (headerText headers i).length
        | none => w.getD i 0 := by
  intro cells
  induction cells with
  | nil =>
      intro w col i h
      simp [pass1Row, ite_self]
  | cons c rest ih =>
      intro w col i h
      rw [show pass1Row headers w col (c :: rest)
          = pass1Row headers (pass1Update (pass1Extend headers w col) col c) (col + 1) rest
          from rfl]
      have hup : col + 1 ≤ (pass1Update (pass1Extend headers w col) col c).length := by
        rw [pass1Update_length, pass1Extend_length headers h]
        omega
      rw [ih _ (col + 1) i hup]
      rcases Nat.lt_trichotomy i col with hic | hic | hic
      · rw [if_neg (by omega : ¬ col ≤ i), if_neg (by omega : ¬ col + 1 ≤ i)]
        exact pass1Step_getD_ne headers h (by omega) c
      · subst hic
        rw [if_neg (by omega : ¬ i + 1 ≤ i), if_pos (le_refl i), Nat.sub_self]
        show (pass1Update (pass1Extend headers w i) i c).getD i 0 = _
        rw [pass1Update_getD_self (show i < (pass1Extend headers w i).length by
          rw [pass1Extend_length headers h]; omega) c]
        rw [pass1Extend_getD_col headers h, itemDataToPlain_zero]
        rfl
      · rw [if_pos (by omega : col ≤ i), if_pos (by omega : col + 1 ≤ i)]
        have hsub : i - col = (i - (col + 1)) + 1 := by omega
        rw [hsub, List.get?_cons_succ]
        have hne : (pass1Update (pass1Extend headers w col) col c).getD i 0 = w.getD i 0 :=
          pass1Step_getD_ne headers h (by omega) c
        have hcond : i < (pass1Update (pass1Extend headers w col) col c).length ↔ i < w.length := by
          rw [pass1Update_length, pass1Extend_length headers h]
          omega
        simp only [hne, hcond]

theorem widths_fold_length (headers : List String) :
    ∀ (rows : List (List Cell)) (w : List Nat),
      (rows.foldl (fun a r => pass1Row headers a 0 r) w).length
        = rows.foldl (fun a r => max a r.length) w.length := by
  intro rows
  induction rows with
  | nil => intro w; rfl
  | cons r rest ih =>
      intro w
      simp only [List.foldl_cons]
      rw [ih (pass1Row headers w 0 r), pass1Row_length headers r w 0 (Nat.zero_le _)]
      simp

theorem computeColWidths_length (headers : List String) (rows : List (List Cell)) :
    (computeColWidths headers rows).length = rows.foldl (fun a r => max a r.length) 0 := by
  unfold computeColWidths
  rw [widths_fold_length]
  rfl

theorem foldl_max_le_init :
    ∀ (rows : List (List Cell)) (n : Nat), n ≤ rows.foldl (fun a r => max a r.length) n := by
  intro rows
  induction rows with
  | nil => intro n; exact le_refl n
  | cons r rest ih =>
      intro n
      simp only [List.foldl_cons]
      exact le_trans (Nat.le_max_left n r.length) (ih (max n r.length))

theorem mem_length_le_foldl_max :
    ∀ (rows : List (List Cell)) (r : List Cell), r ∈ rows →
      ∀ n, r.length ≤ rows.foldl (fun a x => max a x.length) n := by
  intro rows
  induction rows with
  | nil => intro r h; cases h
  | cons a rest ih =>
      intro r h n
      rcases List.mem_cons.mp h with h1 | h2
      · subst h1
        simp only [List.foldl_cons]
        exact le_trans (Nat.le_max_right n r.length) (foldl_max_le_init rest _)
      · simp only [List.foldl_cons]
        exact ih r h2 _

theorem foldl_max_lt_exists :
    ∀ (rows : List (List Cell)) (n i : Nat),
      i < rows.foldl (fun a r => max a r.length) n → i < n ∨ ∃ r ∈ rows, i < r.length := by
  intro rows
  induction rows with
  | nil => intro n i h; exact Or.inl h
  | cons r rest ih =>
      intro n i h
      simp only [List.foldl_cons] at h
      rcases ih _ i h with h1 | h2
      · by_cases hn : i < n
        · exact Or.inl hn
        · have hr : i < r.length := by omega
          exact Or.inr ⟨r, List.mem_cons_self r rest, hr⟩
      · obtain ⟨q, hq, hql⟩ := h2
        exact Or.inr ⟨q, List.mem_cons_of_mem r hq, hql⟩

theorem widths_fold_getD_lt (headers : List String) :
    ∀ (rows : List (List Cell)) (w : List Nat) (i : Nat), i < w.length →
      (rows.foldl (fun a r => pass1Row headers a 0 r) w).getD i 0
        = rows.foldl
            (fun acc r =>
              match r.get? i with
              | some c => if c.isString then max acc c.plainText.length else acc
              | none => acc)
            (w.getD i 0) := by
  intro rows
  induction rows with
  | nil => intro w i h; rfl
  | cons r rest ih =>
      intro w i h
      simp only [List.foldl_cons]
      have hlt : i < (pass1Row headers w 0 r).length := by
        rw [pass1Row_length headers r w 0 (Nat.zero_le _)]
        omega
      rw [ih _ i hlt]
      have hstep : (pass1Row headers w 0 r).getD i 0 =
          match r.get? i with
          | some c => if c.isString then max (w.getD i 0) c.plainText.length else w.getD i 0
          | none => w.getD i 0 := by
        rw [pass1Row_getD headers r w 0 i (Nat.zero_le _)]
        simp only [if_pos (Nat.zero_le i), Nat.sub_zero, if_pos h]
      rw [hstep]

theorem widths_fold_getD_fresh (headers : List String) :
    ∀ (rows : List (List Cell)) (w : List Nat) (i : Nat), w.length ≤ i →
      (rows.foldl (fun a r => pass1Row headers a 0 r) w).getD i 0
        = if rows.any (fun r => i < r.length)
          then rows.foldl
              (fun acc r =>
                match r.get? i with
                | some c => if c.isString then max acc c.plainText.length else acc
                | none => acc)
              (headerText headers i).length
          else 0 := by
  intro rows
  induction rows with
  | nil =>
      intro w i h
      simp only [List.foldl_nil, List.any_nil, if_neg Bool.false_ne_true]
      exact List.getD_eq_default _ _ h
  | cons r rest ih =>
      intro w i h
      simp only [List.foldl_cons, List.any_cons]
      by_cases hir : i < r.length
      · obtain ⟨c, hc⟩ : ∃ c, r.get? i = some c := ⟨r.get ⟨i, hir⟩, List.get?_eq_get hir⟩
        have hlt : i < (pass1Row headers w 0 r).length := by
          rw [pass1Row_length headers r w 0 (Nat.zero_le _)]
          omega
        rw [widths_fold_getD_lt headers rest _ i hlt]
        have hstep : (pass1Row headers w 0 r).getD i 0 =
            if c.isString then max (headerText headers i).length c.plainText.length
            else (headerText headers i).length := by
          rw [pass1Row_getD headers r w 0 i (Nat.zero_le _)]
          simp only [if_pos (Nat.zero_le i), Nat.sub_zero, hc, if_neg (by omega : ¬ i < w.length)]
        rw [hstep]
        have hdec : decide (i < r.length) = true := by simp [hir]
        simp only [hc, hdec, Bool.true_or]
        rfl
      · have hnone : r.get? i = none := List.get?_eq_none.mpr (by omega)
        have hlen : (pass1Row headers w 0 r).length ≤ i := by
          rw [pass1Row_length headers r w 0 (Nat.zero_le _)]
          omega
        rw [ih _ i hlen]
        have hdec : decide (i < r.length) = false := by simp [hir]
        simp only [hnone, hdec, Bool.false_or]

/-- The plain-format column widths agree with the specification fold over
String cells at each defined index. -/
theorem computeColWidths_eq_spec (headers : List String) (rows : List (List Cell)) (i : Nat)
    (hi : i < (computeColWidths headers rows).length) :
    (computeColWidths headers rows).getD i 0 = specColWidth headers rows i := by
  unfold computeColWidths specColWidth
  rw [widths_fold_getD_fresh headers rows [] i (by simp)]
  have hex : ∃ r ∈ rows, i < r.length := by
    rw [computeColWidths_length] at hi
    rcases foldl_max_lt_exists rows 0 i hi with h1 | h2
    · omega
    · exact h2
  have hany : rows.any (fun r => i < r.length) = true := by
    rw [List.any_eq_true]
    obtain ⟨r, hr, hrl⟩ := hex
    exact ⟨r, hr, by simpa using hrl⟩
  rw [if_pos hany]
  rfl

theorem specFold_const (i : Nat) :
    ∀ (rows : List (List Cell)) (init : Nat), rowsNoStringAt rows i = true →
      rows.foldl
          (fun acc r =>
            match r.get? i with
            | some c => if c.isString then max acc c.plainText.length else acc
            | none => acc)
          init = init := by
  intro rows
  induction rows with
  | nil => intro init _; rfl
  | cons r rest ih =>
      intro init hns
      simp only [rowsNoStringAt, List.all_cons, Bool.and_eq_true] at hns
      obtain ⟨hr, hrest⟩ := hns
      simp only [List.foldl_cons]
      have hone : (match r.get? i with
          | some c => if c.isString then max init c.plainText.length else init
          | none => init) = init := by
        cases hg : r.get? i with
        | none => rfl
        | some c =>
            simp only [hg] at hr
            simp only [Bool.not_eq_true'] at hr
            simp [hr]
      rw [hone]
      exact ih init (by simpa [rowsNoStringAt] using hrest)

/-! ## Claims C1 and C9: the width pass -/

/-- C1: every defined plain-format column width equals the specification
fold: initial value the length of header label `i`, raised to the maximum
with the cell text length by String cells only; consequently a column whose
cells are all numeric or float keeps exactly its header-label length. -/
theorem claim_C1 (td : TreeData) (i : Nat)
    (hi : i < (computeColWidths td.headers td.rows).length) :
    (computeColWidths td.headers td.rows).getD i 0 = specColWidth td.headers td.rows i
    ∧ (rowsNoStringAt td.rows i = true →
        (computeColWidths td.headers td.rows).getD i 0 = (td.headers.getD i "").length) := by
  have hmain := computeColWidths_eq_spec td.headers td.rows i hi
  refine ⟨hmain, fun hns => ?_⟩
  rw [hmain]
  unfold specColWidth
  exact specFold_const i td.rows _ hns

/-- Witness for C1 at the demo tree: the numeric column 1 has width 5, the
length of the label Count, and agrees with the specification fold. -/
theorem claim_C1_witness :
    ((computeColWidths tdDemo.headers tdDemo.rows).getD 1 0
        = specColWidth tdDemo.headers tdDemo.rows 1)
    ∧ (computeColWidths tdDemo.headers tdDemo.rows).getD 1 0
        = (tdDemo.headers.getD 1 "").length := by
  obtain ⟨h1, h2⟩ := claim_C1 tdDemo 1 (by decide)
  exact ⟨h1, h2 (by decide)⟩

/-- C9: the indexed access `col_widths[i]` of pass 2 is always in bounds:
for every visible row and every cell position in it, the width list computed
by pass 1 over the same rows is long enough. -/
theorem claim_C9 (td : TreeData) (r : List Cell) (hr : r ∈ td.rows) (i : Nat)
    (hi : i < r.length) :
    i < (computeColWidths td.headers td.rows).length := by
  rw [computeColWidths_length]
  exact lt_of_lt_of_le hi (mem_length_le_foldl_max td.rows r hr 0)

/-- Witness for C9 at the demo tree: position 1 of the first row is below
the width-list length. -/
theorem claim_C9_witness :
    1 < (computeColWidths tdDemo.headers tdDemo.rows).length :=
  claim_C9 tdDemo [Cell.str "alice", Cell.uint 3] (by decide) 1 (by decide)

/-! ## Plain row rendering lemmas -/

theorem spaces_zero : spaces 0 = "" := rfl

theorem itemDataToPlain_eq_specAlign (c : Cell) (w : Nat) :
    itemDataToPlain c w = specAlignCell w c := by
  unfold itemDataToPlain specAlignCell specAlignLeft specAlignRight qstringArg
  by_cases hs : c.isString
  · simp only [if_pos hs]
    by_cases hlt : c.plainText.length < w
    · have h1 : ((w : Int) * -1).natAbs = w := by
        rw [Int.mul_neg_one, Int.natAbs_neg, Int.natAbs_ofNat]
      have h2 : ((w : Int) * -1) < 0 := by omega
      rw [if_pos hlt, h1, if_pos hlt, if_pos h2]
    · rw [if_neg hlt]
      have hz : w - c.plainText.length = 0 := by omega
      rw [hz, spaces_zero, append_empty_str]
  · simp only [if_neg hs]
    by_cases hlt : c.plainText.length < w
    · have h1 : ((w : Int) * 1).natAbs = w := by
        rw [Int.mul_one, Int.natAbs_ofNat]
      have h2 : ¬ ((w : Int) * 1) < 0 := by omega
      rw [if_pos hlt, h1, if_pos hlt, if_neg h2]
    · rw [if_neg hlt]
      have hz : w - c.plainText.length = 0 := by omega
      rw [hz, spaces_zero, empty_append_str]

theorem plainRowParts_eq_enumFrom (widths : List Nat) :
    ∀ (r : List Cell) (i : Nat),
      plainRowParts widths i r
        = (List.enumFrom i r).map (fun p => specAlignCell (widths.getD p.1 0) p.2) := by
  intro r
  induction r with
  | nil => intro i; rfl
  | cons c rest ih =>
      intro i
      rw [show plainRowParts widths i (c :: rest)
          = itemDataToPlain c (widths.getD i 0) :: plainRowParts widths (i + 1) rest from rfl]
      rw [List.enumFrom_cons, List.map_cons, ih (i + 1), itemDataToPlain_eq_specAlign]

theorem rowLine_plain_eq_spec (headers : List String) (widths : List Nat) (r : List Cell) :
    rowLine headers widths StFormatType.plain r = specPlainRowLine widths r := by
  unfold rowLine specPlainRowLine
  rw [show (r.enum) = List.enumFrom 0 r from rfl, ← plainRowParts_eq_enumFrom]
  rfl

/-! ## Claim C2: plain rows and footer -/

/-- C2: the plain output is exactly the header block, then one line per
visible non-empty row (cells aligned into their column widths, String cells
left-aligned, numeric and float cells right-aligned, joined by two spaces,
terminated by a newline), and finally the buffered `-` separator line
appended exactly once at the very end. -/
theorem claim_C2 (td : TreeData) :
    getTreeAsString td StFormatType.plain =
      (plainHeaderSection td).1
        ++ strConcat (td.rows.map (fun r =>
            if r = [] then ""
            else specPlainRowLine (computeColWidths td.headers td.rows) r))
        ++ (plainHeaderSection td).2.1 := by
  show (td.rows.foldl
      (fun ba tid => if tid.length < 1 then ba
        else ba ++ rowLine td.headers (plainHeaderSection td).2.2 StFormatType.plain tid)
      (plainHeaderSection td).1) ++ (plainHeaderSection td).2.1 = _
  rw [foldl_skip_empty]
  have hw : (plainHeaderSection td).2.2 = computeColWidths td.headers td.rows := rfl
  have hfun : (fun (tid : List Cell) => if tid = [] then ""
        else rowLine td.headers (plainHeaderSection td).2.2 StFormatType.plain tid)
      = fun tid => if tid = [] then ""
        else specPlainRowLine (computeColWidths td.headers td.rows) tid := by
    funext tid
    rw [hw, rowLine_plain_eq_spec]
  rw [hfun]

/-! ## Claim C6: zero-cell rows -/

theorem strConcat_middle_empty (l1 l2 : List String) :
    strConcat (l1 ++ [""] ++ l2) = strConcat (l1 ++ l2) := by
  rw [strConcat_append, strConcat_append, strConcat_append]
  rw [show strConcat [""] = "" from rfl, append_empty_str]

theorem foldl_data_skip (pre post : List (List Cell)) (g : List Cell → String) (acc : String) :
    (pre ++ [[]] ++ post).foldl
        (fun (ba : String) (tid : List Cell) => if tid.length < 1 then ba else ba ++ g tid) acc
      = (pre ++ post).foldl
        (fun (ba : String) (tid : List Cell) => if tid.length < 1 then ba else ba ++ g tid) acc := by
  rw [foldl_skip_empty, foldl_skip_empty]
  congr 1
  rw [List.map_append, List.map_append, List.map_append]
  rw [show List.map (fun tid => if tid = [] then "" else g tid) [([] : List Cell)] = [""] from rfl]
  exact strConcat_middle_empty _ _

/-- C6: a visible row with zero cells contributes no data line in any of the
four formats and nothing to the plain column-width computation. -/
theorem claim_C6 (t f : String) (hs : List String) (pre post : List (List Cell))
    (fmt : StFormatType) :
    getTreeAsString ⟨t, f, hs, pre ++ [[]] ++ post⟩ fmt
        = getTreeAsString ⟨t, f, hs, pre ++ post⟩ fmt
    ∧ computeColWidths hs (pre ++ [[]] ++ post) = computeColWidths hs (pre ++ post) := by
  have hwid : computeColWidths hs (pre ++ [[]] ++ post) = computeColWidths hs (pre ++ post) := by
    unfold computeColWidths
    simp only [List.foldl_append, List.foldl_cons, List.foldl_nil, pass1Row]
  refine ⟨?_, hwid⟩
  have hph : plainHeaderSection ⟨t, f, hs, pre ++ [[]] ++ post⟩
      = plainHeaderSection ⟨t, f, hs, pre ++ post⟩ := by
    unfold plainHeaderSection
    simp only [hwid]
  cases fmt with
  | plain =>
      simp only [getTreeAsString, hph]
      rw [foldl_data_skip]
  | csv =>
      simp only [getTreeAsString]
      rw [foldl_data_skip]
      rw [show csvHeaderLine ⟨t, f, hs, pre ++ [[]] ++ post⟩
        = csvHeaderLine ⟨t, f, hs, pre ++ post⟩ from rfl]
  | xml =>
      simp only [getTreeAsString]
      rw [foldl_data_skip]
      rw [show xmlHeaderString ⟨t, f, hs, pre ++ [[]] ++ post⟩
        = xmlHeaderString ⟨t, f, hs, pre ++ post⟩ from rfl]
  | yaml =>
      simp only [getTreeAsString]
      rw [foldl_data_skip]
      rw [show yamlHeaderString ⟨t, f, hs, pre ++ [[]] ++ post⟩
        = yamlHeaderString ⟨t, f, hs, pre ++ post⟩ from rfl]

/-! ## Claim C10: header line and degenerate output -/

theorem take_min_self {α : Type} (l : List α) (n : Nat) :
    l.take (min l.length n) = l.take n :=
  List.take_eq_take.mpr (by omega)

theorem computeColWidths_all_empty (headers : List String) :
    ∀ (rows : List (List Cell)), (∀ r ∈ rows, r = []) →
      computeColWidths headers rows = [] := by
  intro rows
  unfold computeColWidths
  induction rows with
  | nil => intro _; rfl
  | cons r rest ih =>
      intro h
      have hr : r = [] := h r (List.mem_cons_self r rest)
      subst hr
      simp only [List.foldl_cons]
      rw [show pass1Row headers [] 0 [] = [] from rfl]
      exact ih (fun q hq => h q (List.mem_cons_of_mem _ hq))

theorem foldl_data_all_empty (g : List Cell → String) :
    ∀ (rows : List (List Cell)), (∀ r ∈ rows, r = []) → ∀ (acc : String),
      rows.foldl (fun ba tid => if tid.length < 1 then ba else ba ++ g tid) acc = acc := by
  intro rows
  induction rows with
  | nil => intro _ acc; rfl
  | cons r rest ih =>
      intro h acc
      have hr : r = [] := h r (List.mem_cons_self r rest)
      subst hr
      simp only [List.foldl_cons, List.length_nil, Nat.zero_lt_one, if_pos]
      exact ih (fun q hq => h q (List.mem_cons_of_mem _ hq)) acc

/-- C10: the plain header line takes exactly the leading header labels whose
column index lies below the width-list length; and when no visible row
yields any cells, the header line is empty and both separator lines have
zero length, so the whole plain output is the bare skeleton. -/
theorem claim_C10 (td : TreeData) :
    qjoin plain_sep_
        (td.headers.take (min td.headers.length (computeColWidths td.headers td.rows).length))
      = qjoin "  " (td.headers.take (computeColWidths td.headers td.rows).length)
    ∧ ((∀ r ∈ td.rows, r = []) →
        getTreeAsString td StFormatType.plain
          = "\n" ++ (td.title ++ " - " ++ td.fileName ++ ":\n") ++ "\n" ++ "\n" ++ "\n") := by
  constructor
  · rw [take_min_self]
    rfl
  · intro hall
    have hw : computeColWidths td.headers td.rows = [] :=
      computeColWidths_all_empty td.headers td.rows hall
    show (td.rows.foldl
        (fun ba tid => if tid.length < 1 then ba
          else ba ++ rowLine td.headers (plainHeaderSection td).2.2 StFormatType.plain tid)
        (plainHeaderSection td).1) ++ (plainHeaderSection td).2.1 = _
    rw [foldl_data_all_empty _ td.rows hall _]
    unfold plainHeaderSection
    simp only [hw, List.length_nil, Nat.min_zero, List.take_zero]
    rw [show qjoin plain_sep_ ([] : List String) = "" from rfl]
    simp only [String.length_empty, List.replicate_zero]
    rw [show String.mk [] = "" from rfl]
    rw [empty_append_str]

/-- Witness for C10 at a tree whose rows all have zero cells. -/
theorem claim_C10_witness :
    (qjoin plain_sep_
        (tdEmptyRows.headers.take
          (min tdEmptyRows.headers.length (computeColWidths tdEmptyRows.headers tdEmptyRows.rows).length))
      = qjoin "  " (tdEmptyRows.headers.take (computeColWidths tdEmptyRows.headers tdEmptyRows.rows).length))
    ∧ getTreeAsString tdEmptyRows StFormatType.plain
        = "\n" ++ (tdEmptyRows.title ++ " - " ++ tdEmptyRows.fileName ++ ":\n") ++ "\n" ++ "\n" ++ "\n" :=
  ⟨(claim_C10 tdEmptyRows).1, (claim_C10 tdEmptyRows).2 (by decide)⟩

/-! ## CSV split and strip lemmas -/

theorem mk_data (s : String) : String.mk s.data = s := by
  cases s
  rfl

theorem splitCharsOn_no_sep (sep : Char) :
    ∀ (p : List Char), sep ∉ p → splitCharsOn sep p = [p] := by
  intro p
  induction p with
  | nil => intro _; rfl
  | cons c cs ih =>
      intro h
      have hc : ¬ c = sep := fun hcon => h (hcon ▸ List.mem_cons_self c cs)
      have hcs : sep ∉ cs := fun hcon => h (List.mem_cons_of_mem c hcon)
      unfold splitCharsOn
      rw [if_neg hc, ih hcs]

theorem splitCharsOn_append (sep : Char) :
    ∀ (p rest : List Char), sep ∉ p →
      splitCharsOn sep (p ++ sep :: rest) = p :: splitCharsOn sep rest := by
  intro p
  induction p with
  | nil =>
      intro rest _
      show splitCharsOn sep (sep :: rest) = [] :: splitCharsOn sep rest
      conv_lhs => rw [splitCharsOn]
      rw [if_pos rfl]
  | cons c cs ih =>
      intro rest h
      have hc : ¬ c = sep := fun hcon => h (hcon ▸ List.mem_cons_self c cs)
      have hcs : sep ∉ cs := fun hcon => h (List.mem_cons_of_mem c hcon)
      show splitCharsOn sep (c :: (cs ++ sep :: rest)) = (c :: cs) :: splitCharsOn sep rest
      conv_lhs => rw [splitCharsOn]
      rw [if_neg hc, ih rest hcs]

theorem comma_data : ("," : String).data = [Char.ofNat 44] := by decide

theorem splitOnComma_qjoin :
    ∀ (ss : List String), ss ≠ [] → (∀ x ∈ ss, (Char.ofNat 44) ∉ x.data) →
      splitOnComma (qjoin "," ss) = ss := by
  intro ss
  induction ss with
  | nil => intro h; exact absurd rfl h
  | cons s rest ih =>
      intro _ hcl
      have hs : (Char.ofNat 44) ∉ s.data := hcl s (List.mem_cons_self s rest)
      cases rest with
      | nil =>
          show (splitCharsOn (Char.ofNat 44) s.data).map String.mk = [s]
          rw [splitCharsOn_no_sep _ s.data hs, List.map_cons, List.map_nil, mk_data]
      | cons s2 rest2 =>
          have hjoin : (qjoin "," (s :: s2 :: rest2)).data
              = s.data ++ (Char.ofNat 44) :: (qjoin "," (s2 :: rest2)).data := by
            rw [show qjoin "," (s :: s2 :: rest2)
              = s ++ "," ++ qjoin "," (s2 :: rest2) from rfl]
            rw [String.data_append, String.data_append, comma_data]
            simp
          unfold splitOnComma
          rw [hjoin, splitCharsOn_append _ s.data _ hs, List.map_cons, mk_data]
          have htail := ih (by simp) (fun x hx => hcl x (List.mem_cons_of_mem s hx))
          unfold splitOnComma at htail
          rw [htail]

theorem dq_data : ("\"" : String).data = [Char.ofNat 34] := by decide

theorem stripQuotes_quoted (s : String) : stripQuotes ("\"" ++ s ++ "\"") = s := by
  unfold stripQuotes
  have hdata : ("\"" ++ s ++ "\"").data = (Char.ofNat 34) :: (s.data ++ [Char.ofNat 34]) := by
    rw [String.data_append, String.data_append, dq_data]
    simp
  rw [hdata]
  rw [if_pos ?_]
  · rw [show ((Char.ofNat 34) :: (s.data ++ [Char.ofNat 34])).drop 1
      = s.data ++ [Char.ofNat 34] from rfl]
    rw [List.dropLast_concat, mk_data]
  · refine ⟨by simp, rfl, ?_⟩
    rw [show (Char.ofNat 34) :: (s.data ++ [Char.ofNat 34])
      = ((Char.ofNat 34) :: s.data) ++ [Char.ofNat 34] from rfl]
    exact List.getLast?_concat _

theorem stripQuotes_clean (s : String) (h : (Char.ofNat 34) ∉ s.data) : stripQuotes s = s := by
  unfold stripQuotes
  rw [if_neg ?_]
  rintro ⟨_, h2, _⟩
  rcases hd : s.data with _ | ⟨c, cs⟩
  · rw [hd] at h2
    exact absurd h2 (by simp)
  · rw [hd] at h2
    simp only [List.head?_cons, Option.some.injEq] at h2
    rw [hd] at h
    exact h (h2 ▸ List.mem_cons_self c cs)

theorem csvField_strip (c : Cell) (hdq : (Char.ofNat 34) ∉ (Cell.toQString c).data) :
    stripQuotes (csvField c) = c.toQString := by
  unfold csvField
  by_cases hs : c.isString
  · rw [if_pos hs]
    exact stripQuotes_quoted _
  · rw [if_neg hs]
    exact stripQuotes_clean _ hdq

theorem csvField_comma_free (c : Cell) (hc : (Char.ofNat 44) ∉ (Cell.toQString c).data) :
    (Char.ofNat 44) ∉ (csvField c).data := by
  unfold csvField
  by_cases hs : c.isString
  · rw [if_pos hs]
    intro hmem
    rw [String.data_append, String.data_append, dq_data] at hmem
    simp only [List.mem_append, List.mem_singleton, List.mem_cons] at hmem
    rcases hmem with h1 | h2
    · rcases h1 with h1a | h1b
      · exact absurd h1a (by decide)
      · exact hc h1b
    · exact absurd h2 (by decide)
  · rw [if_neg hs]
    exact hc

/-! ## Claim C3: CSV format -/

/-- C3: the CSV output is the double-quoted header labels joined by commas,
then one line per visible non-empty row with String cells double-quoted and
the other types bare, joined by commas; the quoting does not escape the cell
content, and splitting a produced row line on commas and stripping quotes
recovers the cell texts whenever they contain no embedded comma or
double-quote character. -/
theorem claim_C3 (td : TreeData) (tid : List Cell) (hne : tid ≠ [])
    (hcl : ∀ c ∈ tid, (Char.ofNat 44) ∉ (Cell.toQString c).data
      ∧ (Char.ofNat 34) ∉ (Cell.toQString c).data) :
    getTreeAsString td StFormatType.csv
        = csvHeaderLine td
          ++ strConcat (td.rows.map (fun r => if r = [] then ""
              else qjoin "," (r.map csvField) ++ "\n"))
    ∧ (∀ s, csvField (Cell.str s) = "\"" ++ s ++ "\"")
    ∧ (splitOnComma (qjoin "," (tid.map csvField))).map stripQuotes
        = tid.map Cell.toQString := by
  refine ⟨?_, fun s => rfl, ?_⟩
  · show (td.rows.foldl
        (fun ba r => if r.length < 1 then ba
          else ba ++ rowLine td.headers [] StFormatType.csv r)
        (csvHeaderLine td)) ++ "" = _
    rw [append_empty_str, foldl_skip_empty]
    rfl
  · rw [splitOnComma_qjoin (tid.map csvField) (by simpa using hne)
      (by
        intro x hx
        obtain ⟨c, hcmem, rfl⟩ := List.mem_map.mp hx
        exact csvField_comma_free c (hcl c hcmem).1)]
    rw [List.map_map]
    apply List.map_congr_left
    intro c hcmem
    exact csvField_strip c (hcl c hcmem).2

/-- Witness for C3 at the demo tree and its first row. -/
theorem claim_C3_witness :
    getTreeAsString tdDemo StFormatType.csv
        = csvHeaderLine tdDemo
          ++ strConcat (tdDemo.rows.map (fun r => if r = [] then ""
              else qjoin "," (r.map csvField) ++ "\n"))
    ∧ csvField (Cell.str "alice") = "\"" ++ "alice" ++ "\""
    ∧ (splitOnComma (qjoin "," ([Cell.str "alice", Cell.uint 3].map csvField))).map stripQuotes
        = [Cell.str "alice", Cell.uint 3].map Cell.toQString := by
  obtain ⟨h1, h2, h3⟩ := claim_C3 tdDemo [Cell.str "alice", Cell.uint 3]
    (by decide) (by decide)
  exact ⟨h1, h2 "alice", h3⟩

/-! ## Claim C4: XML escaping -/

theorem push_eq_append (s : String) (c : Char) : s.push c = s ++ String.mk [c] := by
  apply strExt
  rw [String.data_append]
  rfl

theorem escape_foldl (l : List Char) :
    ∀ acc : String,
      l.foldl
        (fun rich ch =>
          if ch = Char.ofNat 60 then rich ++ "&lt;"
          else if ch = Char.ofNat 62 then rich ++ "&gt;"
          else if ch = Char.ofNat 38 then rich ++ "&amp;"
          else if ch = Char.ofNat 34 then rich ++ "&quot;"
          else rich.push ch)
        acc
      = acc ++ strConcat (l.map specEscapeChar) := by
  induction l with
  | nil =>
      intro acc
      rw [List.foldl_nil, List.map_nil]
      exact (append_empty_str acc).symm
  | cons ch cs ih =>
      intro acc
      rw [List.foldl_cons, List.map_cons, strConcat_cons, ih, ← String.append_assoc]
      congr 1
      unfold specEscapeChar
      by_cases h60 : ch = Char.ofNat 60
      · subst h60
        rw [if_pos rfl, if_neg (by decide), if_pos rfl]
      · rw [if_neg h60]
        by_cases h62 : ch = Char.ofNat 62
        · subst h62
          rw [if_pos rfl, if_neg (by decide), if_neg (by decide), if_pos rfl]
        · rw [if_neg h62]
          by_cases h38 : ch = Char.ofNat 38
          · subst h38
            rw [if_pos rfl, if_pos rfl]
          · rw [if_neg h38]
            by_cases h34 : ch = Char.ofNat 34
            · subst h34
              rw [if_pos rfl, if_neg (by decide), if_neg (by decide), if_neg (by decide),
                if_pos rfl]
            · rw [if_neg h34, if_neg h38, if_neg h60, if_neg h62, if_neg h34]
              exact push_eq_append acc ch

theorem toHtmlEscaped_eq_specEscape4 (s : String) : toHtmlEscaped s = specEscape4 s := by
  unfold toHtmlEscaped specEscape4
  rw [escape_foldl, empty_append_str]

set_option maxRecDepth 8192 in
/-- C4 counterexample: the claim states that every occurrence of the
apostrophe is replaced in every entry, but `QString::toHtmlEscaped` (and the
Qt 4 `Qt::escape`) replace only `<`, `>`, `&` and `"`; on a cell containing
an apostrophe the XML output still contains the apostrophe character. -/
theorem claim_C4_counterexample :
    getTreeAsString tdQuote StFormatType.xml
        = "<?xml version=\"1.0\" encoding=\"UTF-8\"?>\n<table>\n<title>T</title>\n<thead>\n<row>\n  <entry>H</entry>\n</row>\n</thead>\n<tbody>\n<row>\n  <entry>a"
          ++ String.mk [apos] ++ "&amp;&lt;b</entry>\n</row>\n</tbody>\n</table>\n"
    ∧ (Char.ofNat 39) ∈ (getTreeAsString tdQuote StFormatType.xml).data :=
  ⟨by decide, by decide⟩

/-- C4 (amended): the title and every entry of the header and the body are
HTML-escaped with the replacement of each occurrence of `&`, `<`, `>` and
`"` (the apostrophe is not replaced), regardless of the cell type. -/
theorem claim_C4 (td : TreeData) :
    getTreeAsString td StFormatType.xml = specXmlOutput td := by
  show (td.rows.foldl
      (fun ba tid => if tid.length < 1 then ba
        else ba ++ rowLine td.headers [] StFormatType.xml tid)
      (xmlHeaderString td)) ++ "</tbody>\n</table>\n" = _
  rw [foldl_skip_empty]
  have hfun : (fun (tid : List Cell) => if tid = [] then ""
        else rowLine td.headers [] StFormatType.xml tid)
      = fun tid => if tid = [] then "" else specXmlRow tid := by
    funext tid
    by_cases h : tid = []
    · rw [if_pos h, if_pos h]
    · rw [if_neg h, if_neg h]
      show "<row>\n" ++ strConcat (tid.map xmlEntry) ++ "</row>\n" = specXmlRow tid
      unfold specXmlRow xmlEntry specXmlEntryLine
      simp only [toHtmlEscaped_eq_specEscape4]
  rw [hfun]
  unfold specXmlOutput xmlHeaderString specXmlEntryLine
  simp only [toHtmlEscaped_eq_specEscape4]
  apply strExt
  simp [String.data_append, List.append_assoc]

/-! ## Claim C5: YAML format -/

theorem yamlRowLine_space (headers : List String) :
    ∀ (r : List Cell) (col : Nat),
      yamlRowLine headers col " " r
        = strConcat ((List.enumFrom col r).map
            (fun p => "    " ++ headers.getD p.1 "" ++ ": " ++ yamlEntry p.2 ++ "\n")) := by
  intro r
  induction r with
  | nil => intro col; rfl
  | cons c rest ih =>
      intro col
      show ("  " ++ " " ++ " " ++ headerText headers col ++ ": " ++ yamlEntry c ++ "\n")
          ++ yamlRowLine headers (col + 1) " " rest = _
      rw [List.enumFrom_cons, List.map_cons, strConcat_cons, ih (col + 1)]
      rw [show ("  " : String) ++ " " ++ " " = "    " from rfl]
      rfl

theorem findMinAux_append_clean :
    ∀ (l tail : List Char), pctChar ∉ l →
      findMinAux ArgScanState.normal (l ++ tail) = findMinAux ArgScanState.normal tail := by
  intro l
  induction l with
  | nil => intro tail _; rfl
  | cons c l' ih =>
      intro tail h
      have hc : ¬ c = pctChar := fun hcon => h (hcon ▸ List.mem_cons_self c l')
      show findMinAux ArgScanState.normal (c :: (l' ++ tail)) = _
      conv_lhs => rw [findMinAux]
      rw [if_neg hc, ih tail (fun hm => h (List.mem_cons_of_mem c hm))]

theorem replaceAux_append_clean (m : Nat) (a : List Char) :
    ∀ (l tail : List Char), pctChar ∉ l →
      replaceAux m a ArgScanState.normal (l ++ tail)
        = l ++ replaceAux m a ArgScanState.normal tail := by
  intro l
  induction l with
  | nil => intro tail _; rfl
  | cons c l' ih =>
      intro tail h
      have hc : ¬ c = pctChar := fun hcon => h (hcon ▸ List.mem_cons_self c l')
      show replaceAux m a ArgScanState.normal (c :: (l' ++ tail)) = _
      conv_lhs => rw [replaceAux]
      rw [if_neg hc, ih tail (fun hm => h (List.mem_cons_of_mem c hm))]
      rfl

theorem strData_mk (l : List Char) : (String.mk l).data = l := rfl

/-- With a title free of percent characters, the chained arg substitutions
of the YAML header produce exactly the concatenated Description and File
lines: the first substitution pastes the title into the `%1` marker, and
the rescan of the second substitution finds only the `%2` marker. -/
theorem yamlHeader_clean (td : TreeData) (hclean : pctChar ∉ td.title.data) :
    yamlHeaderString td
      = "---\n" ++ "Description: \"" ++ td.title ++ "\"\nFile: \"" ++ td.fileName
        ++ "\"\nItems:\n" := by
  have h1 : qstringArgStr "Description: \"%1\"\nFile: \"%2\"\nItems:\n" td.title
      = String.mk (("Description: \"" : String).data
          ++ (td.title.data ++ ("\"\nFile: \"%2\"\nItems:\n" : String).data)) := rfl
  have hfind : findMinMarker (("Description: \"" : String).data
      ++ (td.title.data ++ ("\"\nFile: \"%2\"\nItems:\n" : String).data)) = some 2 := by
    unfold findMinMarker
    rw [findMinAux_append_clean _ _ (by decide), findMinAux_append_clean _ _ hclean]
    rfl
  have h2 : qstringArgStr (String.mk (("Description: \"" : String).data
        ++ (td.title.data ++ ("\"\nFile: \"%2\"\nItems:\n" : String).data))) td.fileName
      = String.mk (("Description: \"" : String).data
          ++ (td.title.data ++ (("\"\nFile: \"" : String).data
            ++ (td.fileName.data ++ ("\"\nItems:\n" : String).data)))) := by
    unfold qstringArgStr
    rw [strData_mk, hfind]
    show String.mk (replaceMarker 2 td.fileName.data _) = _
    unfold replaceMarker
    rw [replaceAux_append_clean _ _ _ _ (by decide), replaceAux_append_clean _ _ _ _ hclean]
    rw [show replaceAux 2 td.fileName.data ArgScanState.normal
        (("\"\nFile: \"%2\"\nItems:\n" : String).data)
      = ("\"\nFile: \"" : String).data
        ++ (td.fileName.data ++ ("\"\nItems:\n" : String).data) from rfl]
  show "---\n" ++ qstringArgStr (qstringArgStr "Description: \"%1\"\nFile: \"%2\"\nItems:\n"
      td.title) td.fileName = _
  rw [h1, h2]
  apply strExt
  simp [String.data_append, strData_mk, List.append_assoc]

/-- C5 counterexample: the claim renders the first cell of a row as
`"- <label>: <value>"` and subsequent cells indented two spaces, but the
source line template `"  %1 %2: %3\n"` puts two further spaces in front:
the first cell line starts with `"  - "` and subsequent cell lines with four
spaces, so on the demo tree the output differs from the claimed shape. -/
theorem claim_C5_counterexample :
    getTreeAsString tdDemo StFormatType.yaml ≠ claimedYamlOutput tdDemo := by
  decide

/-- C5 (amended): provided the title contains no percent character (a place
marker in the title would be consumed by the chained arg substitution and
swallow the file name), the YAML output is `---`, one
`Description: "<title>"` line, one `File: "<source>"` line and `Items:`,
then for every visible non-empty row the first cell on a line
`"  - <label>: <value>"` and every further cell on a line
`"    <label>: <value>"` (two more leading spaces than the claim states,
the dash column replaced by a space), String values double-quoted and other
values bare. -/
theorem claim_C5 (td : TreeData) (hclean : pctChar ∉ td.title.data) :
    getTreeAsString td StFormatType.yaml = specYamlOutput td := by
  show (td.rows.foldl
      (fun ba tid => if tid.length < 1 then ba
        else ba ++ rowLine td.headers [] StFormatType.yaml tid)
      (yamlHeaderString td)) ++ "" = _
  rw [append_empty_str, foldl_skip_empty]
  have hfun : (fun (tid : List Cell) => if tid = [] then ""
        else rowLine td.headers [] StFormatType.yaml tid)
      = fun tid => if tid = [] then "" else specYamlRow td.headers tid := by
    funext tid
    cases tid with
    | nil => rfl
    | cons c rest =>
        rw [if_neg (by simp), if_neg (by simp)]
        show ("  " ++ "-" ++ " " ++ headerText td.headers 0 ++ ": " ++ yamlEntry c ++ "\n")
            ++ yamlRowLine td.headers 1 " " rest = _
        rw [yamlRowLine_space td.headers rest 1]
        rw [show ("  " : String) ++ "-" ++ " " = "  - " from rfl]
        rfl
  rw [hfun, yamlHeader_clean td hclean]
  rfl

/-- Witness for C5 at the demo tree, whose title Demo contains no percent
character. -/
theorem claim_C5_witness :
    getTreeAsString tdDemo StFormatType.yaml = specYamlOutput tdDemo :=
  claim_C5 tdDemo (by decide)

end TapDialog
